import Mathlib

/-!
Verification of the per-field value index core of `datacore`
(`src/index/storage/fields.ts`): the `FieldIndex` contract and its four
implementations (`EverythingFieldIndex`, `IdFieldIndex`, `SetFieldIndex`,
`BTreeFieldIndex`).

Modelling conventions:
* A JavaScript `Set<string>` is insertion-ordered and duplicate-free; it is
  modelled as a `List String` (`JsSet`) where `add` appends when absent and
  `delete` erases.  Iteration order of the model list is the JS iteration
  order.
* The third-party `sorted-btree` `BTree<Literal, Set<string>>` is modelled as
  an association list kept in ascending key order: `setIfNotPresent` inserts
  at the sorted position (keeping an existing entry), `get` is keyed lookup,
  `delete` removes the entries with the key, `entries` iterates in key order
  and `entriesReversed` in reverse key order.
* The external `Literal` value type (module `expression/literal`, outside
  `src/`) is modelled from the spec: a totally ordered value type.  The index
  structures are therefore parameterised by a `LinearOrder` type `V`
  standing for `Literal` with `Literals.compare`; for `IdFieldIndex.equals`,
  which inspects the tag of the value, a concrete tagged union `Literal`
  is also modelled from the spec.
* `Set<string> | undefined` results become `Option JsSet`, with `none` the
  "unsupported" sentinel.
* JavaScript objects are heap references; where a claim is about reference
  (aliasing) behaviour, a small explicit store of `Set` cells is used
  (`SetFieldIndexRef`, `BTreeFieldIndexRef`), in which `all()` returns the
  reference to the internal `present` cell, exactly as `return this.present`
  does in the source.
-/

/-- A JavaScript `Set<string>`: insertion-ordered, duplicate-free. -/
abbrev JsSet := List String

namespace JsSet

/-- `Set.prototype.add`: append if not already a member. -/
def addElem (s : JsSet) (x : String) : JsSet :=
  if x ∈ s then s else s ++ [x]

/-- `new Set(list)`: collect elements in first-occurrence order. -/
def ofList (l : List String) : JsSet :=
  l.foldl addElem []

end JsSet

/-- Keyed lookup: first entry whose key equals `k` (the sorted map holds at
most one entry per key). -/
def alistGet {α β : Type} [DecidableEq α] (k : α) : List (α × β) → Option β
  | [] => none
  | e :: rest => if e.1 = k then some e.2 else alistGet k rest

/-- `BTree.delete(k)` / removal of a key: drop the entries keyed `k`. -/
def alistDel {α β : Type} [DecidableEq α] (k : α) (es : List (α × β)) :
    List (α × β) :=
  es.filter (fun e => decide (e.1 ≠ k))

/-- In-place mutation of the value stored under key `k`
(`map.get(k)!.add(id)` and the like). -/
def alistModify {α β : Type} [DecidableEq α] (k : α) (f : β → β)
    (es : List (α × β)) : List (α × β) :=
  es.map (fun e => if e.1 = k then (e.1, f e.2) else e)

/-- `BTree.setIfNotPresent(k, s)`: insert `(k, s)` at the sorted position;
if an entry with key `k` already exists, keep it unchanged. -/
def btInsertIfAbsent {α β : Type} [LinearOrder α] (k : α) (s : β) :
    List (α × β) → List (α × β)
  | [] => [(k, s)]
  | e :: rest =>
    if k < e.1 then (k, s) :: e :: rest
    else if k = e.1 then e :: rest
    else e :: btInsertIfAbsent k s rest

/-! ### The Field Value type

Modelled from the spec: `Literal` (module `expression/literal`, outside
`src/`) is a tagged union (null, boolean, number, string, date/time, link,
array, object) with a fixed total order.  The tagged union below is used by
`IdFieldIndex.equals`, which only inspects whether the value is a string;
the value-ordered index is parameterised over an arbitrary linearly ordered
type standing for `Literal` with `Literals.compare`. -/
inductive Literal where
  | nullV : Literal
  | boolV (b : Bool) : Literal
  | numV (n : Int) : Literal
  | strV (s : String) : Literal
  | dateV (instant : Int) : Literal
  | linkV (path : String) : Literal
  | arrV (xs : List Literal) : Literal
  | objV (fields : List (String × Literal)) : Literal

/-- `Literals.isString` (modelled from the spec: the string-kind test of the
tagged union). -/
def Literal.isString : Literal → Bool
  | .strV _ => true
  | _ => false

/-! ### `EverythingFieldIndex`

Field index for any field which is always or almost always present.
`all` is the externally supplied total-enumeration closure; in the pure
model the closure is represented by the id set it returns. -/

structure EverythingFieldIndex where
  allF : JsSet

namespace EverythingFieldIndex

/-- `add(id, value)`: `{}` (no-op). -/
def add {V : Type} (e : EverythingFieldIndex) (_id : String) (_value : V) :
    EverythingFieldIndex := e

/-- `delete(id, value)`: `{}` (no-op). -/
def delete {V : Type} (e : EverythingFieldIndex) (_id : String) (_value : V) :
    EverythingFieldIndex := e

/-- `all()`: defers to the enumeration closure. -/
def all (e : EverythingFieldIndex) : JsSet := e.allF

/-- `equals(value)`: `return undefined`. -/
def equals {V : Type} (_e : EverythingFieldIndex) (_value : V) :
    Option JsSet := none

/-- `ascending()`: `return undefined`. -/
def ascending (_e : EverythingFieldIndex) : Option JsSet := none

/-- `descending()`: `return undefined`. -/
def descending (_e : EverythingFieldIndex) : Option JsSet := none

end EverythingFieldIndex

/-! ### `IdFieldIndex`

Specialized field index for IDs; `allF` models the enumeration closure and
`lookup` the externally supplied membership test. -/

structure IdFieldIndex where
  allF : JsSet
  lookup : String → Bool

namespace IdFieldIndex

/-- `add(id, value)`: `{}` (no-op). -/
def add (ii : IdFieldIndex) (_id : String) (_value : Literal) : IdFieldIndex := ii

/-- `delete(id, value)`: `{}` (no-op). -/
def delete (ii : IdFieldIndex) (_id : String) (_value : Literal) : IdFieldIndex := ii

/-- `all()`: defers to the enumeration closure. -/
def all (ii : IdFieldIndex) : JsSet := ii.allF

/-- `equals(value)`: `undefined` unless the value is a string; on a string,
`new Set([value])` if `lookup(value)`, else `undefined`. -/
def equals (ii : IdFieldIndex) (value : Literal) : Option JsSet :=
  match value with
  | .strV s => if ii.lookup s then some [s] else none
  | _ => none

end IdFieldIndex

/-! ### `SetFieldIndex` (Presence Index)

Default field index tracking only the set of ids on which the field is
present.  The `value` argument is ignored by `add`/`delete`, exactly as in
the source. -/

structure SetFieldIndex where
  present : JsSet

namespace SetFieldIndex

/-- `new SetFieldIndex()`. -/
def empty : SetFieldIndex := ⟨[]⟩

/-- `add(id, value)`: `this.present.add(id)`. -/
def add {V : Type} (s : SetFieldIndex) (id : String) (_value : V) :
    SetFieldIndex := ⟨s.present.addElem id⟩

/-- `delete(id, value)`: `this.present.delete(id)`. -/
def delete {V : Type} (s : SetFieldIndex) (id : String) (_value : V) :
    SetFieldIndex := ⟨s.present.erase id⟩

/-- `all()`: `return this.present`. -/
def all (s : SetFieldIndex) : JsSet := s.present

/-- `equals(value)`: `return undefined`. -/
def equals {V : Type} (_s : SetFieldIndex) (_value : V) : Option JsSet := none

/-- `ascending()`: `return undefined`. -/
def ascending (_s : SetFieldIndex) : Option JsSet := none

/-- `descending()`: `return undefined`. -/
def descending (_s : SetFieldIndex) : Option JsSet := none

end SetFieldIndex

/-! ### `BTreeFieldIndex` (Ordered Value Index) -/

/-- Field index which tracks field locations using both an overall set and a
sorted map of values.  `values` is the entry list of the
`BTree<Literal, Set<string>>`, kept in ascending key order. -/
structure BTreeFieldIndex (V : Type) where
  present : JsSet
  values : List (V × JsSet)

namespace BTreeFieldIndex

variable {V : Type}

/-- `new BTreeFieldIndex()`. -/
def empty : BTreeFieldIndex V := ⟨[], []⟩

/-- Placeholder empty set. -/
def EMPTY_SET : JsSet := []

/-- `add(id, value)`: `this.present.add(id); this.values.setIfNotPresent(value,
new Set()); this.values.get(value)!.add(id);`. -/
def add [LinearOrder V] (idx : BTreeFieldIndex V) (id : String) (value : V) :
    BTreeFieldIndex V :=
  { present := idx.present.addElem id
    values := alistModify value (fun b => b.addElem id)
      (btInsertIfAbsent value [] idx.values) }

/-- `delete(id, value)`: `this.present.delete(id); const set =
this.values.get(value); set?.delete(id); if (set == null || set.size == 0)
this.values.delete(value);`. -/
def delete [LinearOrder V] (idx : BTreeFieldIndex V) (id : String) (value : V) :
    BTreeFieldIndex V :=
  let present := idx.present.erase id
  match alistGet value idx.values with
  | none => ⟨present, alistDel value idx.values⟩
  | some s =>
    if s.erase id = [] then ⟨present, alistDel value idx.values⟩
    else ⟨present, alistModify value (fun b => b.erase id) idx.values⟩

/-- `all()`: `return this.present`. -/
def all (idx : BTreeFieldIndex V) : JsSet := idx.present

/-- `equals(value)`: `return this.values.get(value, BTreeFieldIndex.EMPTY_SET)`. -/
def equals [LinearOrder V] (idx : BTreeFieldIndex V) (value : V) : Option JsSet :=
  some ((alistGet value idx.values).getD EMPTY_SET)

/-- `ascending()`: flatten the buckets in forward key order into a `Set`. -/
def ascending (idx : BTreeFieldIndex V) : JsSet :=
  JsSet.ofList ((idx.values.map Prod.snd).flatten)

/-- `descending()`: flatten the buckets in reverse key order into a `Set`. -/
def descending (idx : BTreeFieldIndex V) : JsSet :=
  JsSet.ofList ((idx.values.reverse.map Prod.snd).flatten)

end BTreeFieldIndex

/-! ### Mutation sequences -/

/-- One `FieldIndex` mutation. -/
inductive Op (V : Type) where
  | add (id : String) (value : V) : Op V
  | del (id : String) (value : V) : Op V

/-- Replay one mutation on a `SetFieldIndex`. -/
def SetFieldIndex.step {V : Type} (s : SetFieldIndex) : Op V → SetFieldIndex
  | .add id v => s.add id v
  | .del id v => s.delete id v

/-- Replay from the empty `SetFieldIndex`. -/
def SetFieldIndex.replay {V : Type} (ops : List (Op V)) : SetFieldIndex :=
  ops.foldl SetFieldIndex.step SetFieldIndex.empty

/-- Replay one mutation on a `BTreeFieldIndex`. -/
def BTreeFieldIndex.step {V : Type} [LinearOrder V] (idx : BTreeFieldIndex V) :
    Op V → BTreeFieldIndex V
  | .add id v => idx.add id v
  | .del id v => idx.delete id v

/-- Replay from the empty `BTreeFieldIndex`. -/
def BTreeFieldIndex.replay {V : Type} [LinearOrder V] (ops : List (Op V)) :
    BTreeFieldIndex V :=
  ops.foldl BTreeFieldIndex.step BTreeFieldIndex.empty

/-- Replay a sequence of mutations on an `EverythingFieldIndex`. -/
def EverythingFieldIndex.replay {V : Type} (e : EverythingFieldIndex)
    (ops : List (Op V)) : EverythingFieldIndex :=
  ops.foldl (fun e' op => match op with
    | .add id v => e'.add id v
    | .del id v => e'.delete id v) e

/-- Whether, after replaying `ops` on an initially absent id, the last
`add`/`delete` mentioning `id` is an `add` (i.e. the id is currently
present under set semantics). -/
def presentAfter {V : Type} (ops : List (Op V)) (id : String) : Bool :=
  ops.foldl (fun acc op => match op with
    | .add i _ => if i = id then true else acc
    | .del i _ => if i = id then false else acc) false

/-- Count of `add(id, _)` calls in a sequence. -/
def countAdds {V : Type} (ops : List (Op V)) (id : String) : Nat :=
  ops.countP (fun op => match op with
    | .add i _ => i = id
    | .del _ _ => False)

/-- Count of `delete(id, _)` calls in a sequence. -/
def countDels {V : Type} (ops : List (Op V)) (id : String) : Nat :=
  ops.countP (fun op => match op with
    | .add _ _ => False
    | .del i _ => i = id)

/-! ### The caller's lifecycle discipline (ghost state)

The spec's lifecycle discipline is modelled as a run over a ghost partial
map from document id to its current field value: `add(id, v)` is permitted
when `id` is unindexed or already holds exactly `v` (idempotent re-add);
`delete(id, v)` is permitted when `id` currently holds `v` (removing it) or
when `id` is unindexed (the no-op delete of a never-added pair). -/

/-- One disciplined step of the ghost current-value map; `none` signals a
call that violates the discipline. -/
def ghostStep {V : Type} [DecidableEq V] (g : List (String × V)) :
    Op V → Option (List (String × V))
  | .add id v =>
    match alistGet id g with
    | none => some ((id, v) :: g)
    | some w => if v = w then some g else none
  | .del id v =>
    match alistGet id g with
    | none => some g
    | some w => if v = w then some (alistDel id g) else none

/-- Run the ghost map through a sequence of calls. -/
def ghostRun {V : Type} [DecidableEq V] (g : List (String × V)) :
    List (Op V) → Option (List (String × V))
  | [] => some g
  | op :: rest =>
    match ghostStep g op with
    | none => none
    | some g' => ghostRun g' rest

/-- The internal well-formedness relation of a `BTreeFieldIndex` against the
ghost current-value map: this is the invariant of the Ordered Value Index. -/
structure BTreeInv {V : Type} [LinearOrder V] (idx : BTreeFieldIndex V)
    (g : List (String × V)) : Prop where
  presNodup : idx.present.Nodup
  ghostKeysNodup : (g.map Prod.fst).Nodup
  presIff : ∀ id : String, id ∈ idx.present ↔ (alistGet id g).isSome
  bucketIff : ∀ (id : String) (v : V),
    (∃ b, alistGet v idx.values = some b ∧ id ∈ b) ↔ alistGet id g = some v
  bucketsNE : ∀ e ∈ idx.values, e.2 ≠ []
  bucketsNodup : ∀ e ∈ idx.values, e.2.Nodup
  sorted : idx.values.Pairwise (fun a b => a.1 < b.1)

/-! ### Reference-level model (for aliasing behaviour)

A JS `Set<string>` object is a mutable heap cell; the store is a list of
cells addressed by index.  `all()` returns the *reference* to the internal
`present` cell (`return this.present`), so the returned object observes
later mutations. -/

/-- Read a `Set` cell from the store. -/
def heapRead (h : List JsSet) (r : Nat) : JsSet := h.getD r []

/-- Overwrite a `Set` cell in the store. -/
def heapWrite (h : List JsSet) (r : Nat) (s : JsSet) : List JsSet := h.set r s

/-- `SetFieldIndex` with its `present` set held as a heap reference. -/
structure SetFieldIndexRef where
  presentRef : Nat

namespace SetFieldIndexRef

/-- `add(id, value)` on the store: mutate the `present` cell in place. -/
def addR {V : Type} (o : SetFieldIndexRef) (id : String) (_value : V)
    (h : List JsSet) : List JsSet :=
  heapWrite h o.presentRef ((heapRead h o.presentRef).addElem id)

/-- `delete(id, value)` on the store: mutate the `present` cell in place. -/
def deleteR {V : Type} (o : SetFieldIndexRef) (id : String) (_value : V)
    (h : List JsSet) : List JsSet :=
  heapWrite h o.presentRef ((heapRead h o.presentRef).erase id)

/-- `all()`: `return this.present` — the reference, not a copy. -/
def allR (o : SetFieldIndexRef) : Nat := o.presentRef

end SetFieldIndexRef

/-- `BTreeFieldIndex` with its `present` set held as a heap reference (the
value buckets, which no aliasing claim touches, stay structural). -/
structure BTreeFieldIndexRef (V : Type) where
  presentRef : Nat
  values : List (V × JsSet)

namespace BTreeFieldIndexRef

variable {V : Type}

/-- `add(id, value)` on the store: mutate `present` in place and update the
sorted map as in `BTreeFieldIndex.add`. -/
def addR [LinearOrder V] (o : BTreeFieldIndexRef V) (id : String) (value : V)
    (h : List JsSet) : BTreeFieldIndexRef V × List JsSet :=
  (⟨o.presentRef,
    alistModify value (fun b => b.addElem id)
      (btInsertIfAbsent value [] o.values)⟩,
   heapWrite h o.presentRef ((heapRead h o.presentRef).addElem id))

/-- `delete(id, value)` on the store: mutate `present` in place and update
the sorted map as in `BTreeFieldIndex.delete`. -/
def deleteR [LinearOrder V] (o : BTreeFieldIndexRef V) (id : String)
    (value : V) (h : List JsSet) : BTreeFieldIndexRef V × List JsSet :=
  let h' := heapWrite h o.presentRef ((heapRead h o.presentRef).erase id)
  match alistGet value o.values with
  | none => (⟨o.presentRef, alistDel value o.values⟩, h')
  | some s =>
    if s.erase id = [] then (⟨o.presentRef, alistDel value o.values⟩, h')
    else (⟨o.presentRef, alistModify value (fun b => b.erase id) o.values⟩, h')

/-- `all()`: `return this.present` — the reference, not a copy. -/
def allR (o : BTreeFieldIndexRef V) : Nat := o.presentRef

end BTreeFieldIndexRef

/-! ## Lemmas about the `Set` model -/

namespace JsSet

theorem mem_addElem {s : JsSet} {x y : String} :
    y ∈ s.addElem x ↔ y ∈ s ∨ y = x := by
  unfold addElem
  split
  · constructor
    · exact fun h => Or.inl h
    · rintro (h | rfl) <;> assumption
  · simp [List.mem_append]

theorem nodup_addElem {s : JsSet} (h : s.Nodup) (x : String) :
    (s.addElem x).Nodup := by
  unfold addElem
  split
  · exact h
  · rename_i hx
    refine List.Nodup.append h (List.nodup_singleton x) ?_
    intro a ha hb
    simp only [List.mem_singleton] at hb
    exact hx (hb ▸ ha)

theorem addElem_of_mem {s : JsSet} {x : String} (h : x ∈ s) :
    s.addElem x = s := by
  unfold addElem
  simp [h]

theorem addElem_ne_nil {s : JsSet} {x : String} : s.addElem x ≠ [] := by
  unfold addElem
  split
  · intro hcon
    subst hcon
    simp at *
  · simp

theorem mem_ofList_aux {l : List String} {acc : JsSet} {x : String} :
    x ∈ l.foldl addElem acc ↔ x ∈ acc ∨ x ∈ l := by
  induction l generalizing acc with
  | nil => simp
  | cons y t ih =>
    simp only [List.foldl_cons, ih, mem_addElem, List.mem_cons]
    tauto

theorem mem_ofList {l : List String} {x : String} :
    x ∈ ofList l ↔ x ∈ l := by
  unfold ofList
  simp [mem_ofList_aux]

theorem foldl_addElem_of_nodup {l : List String} :
    ∀ acc : JsSet, acc.Nodup → (∀ y ∈ l, y ∉ acc) → l.Nodup →
      l.foldl addElem acc = acc ++ l := by
  induction l with
  | nil => intro acc _ _ _; simp
  | cons y t ih =>
    intro acc hacc hdisj hnd
    have hy : y ∉ acc := hdisj y (List.mem_cons_self y t)
    have step : addElem acc y = acc ++ [y] := by
      unfold addElem
      simp [hy]
    simp only [List.foldl_cons, step]
    rw [ih (acc ++ [y])
        (by
          refine List.Nodup.append hacc (List.nodup_singleton y) ?_
          intro a ha hb
          simp only [List.mem_singleton] at hb
          subst hb
          exact hy ha)
        (by
          intro z hz
          simp only [List.mem_append, List.mem_singleton]
          rintro (h | rfl)
          · exact hdisj z (List.mem_cons_of_mem y hz) h
          · exact (List.nodup_cons.mp hnd).1 hz)
        (List.nodup_cons.mp hnd).2]
    simp

theorem ofList_of_nodup {l : List String} (h : l.Nodup) : ofList l = l := by
  unfold ofList
  simpa using foldl_addElem_of_nodup (l := l) [] (by simp) (by simp) h

end JsSet

/-! ## Lemmas about keyed lookup -/

section AlistLemmas

variable {α : Type} {β : Type} [DecidableEq α]

@[simp] theorem alistGet_nil {k : α} : alistGet k ([] : List (α × β)) = none := rfl

theorem alistGet_cons {k : α} {e : α × β} {rest : List (α × β)} :
    alistGet k (e :: rest) = if e.1 = k then some e.2 else alistGet k rest := rfl

theorem alistGet_eq_none {k : α} {es : List (α × β)} :
    alistGet k es = none ↔ ∀ e ∈ es, e.1 ≠ k := by
  induction es with
  | nil => simp
  | cons e rest ih =>
    rw [alistGet_cons]
    split
    · simp_all
    · simp_all

theorem alistGet_mem {k : α} {es : List (α × β)} {b : β}
    (h : alistGet k es = some b) : (k, b) ∈ es := by
  induction es with
  | nil => simp at h
  | cons e rest ih =>
    rw [alistGet_cons] at h
    split at h
    · rename_i he
      obtain ⟨e1, e2⟩ := e
      simp only at he
      injection h with h2
      subst he
      subst h2
      exact List.mem_cons_self _ _
    · exact List.mem_cons_of_mem _ (ih h)

theorem alistGet_del_self {k : α} {es : List (α × β)} :
    alistGet k (alistDel k es) = none := by
  rw [alistGet_eq_none]
  intro e he
  have := List.of_mem_filter he
  simpa using this

theorem alistGet_del_ne {k k' : α} (h : k' ≠ k) {es : List (α × β)} :
    alistGet k' (alistDel k es) = alistGet k' es := by
  induction es with
  | nil => rfl
  | cons e rest ih =>
    by_cases hek : e.1 = k
    · have hdel : alistDel k (e :: rest) = alistDel k rest := by
        simp [alistDel, List.filter_cons, hek]
      rw [hdel, ih, alistGet_cons]
      have : e.1 ≠ k' := by
        rw [hek]; exact fun hc => h hc.symm
      simp [this]
    · have hdel : alistDel k (e :: rest) = e :: alistDel k rest := by
        simp [alistDel, List.filter_cons, hek]
      rw [hdel, alistGet_cons, alistGet_cons, ih]

theorem alistDel_of_get_none {k : α} {es : List (α × β)}
    (h : alistGet k es = none) : alistDel k es = es := by
  rw [alistGet_eq_none] at h
  unfold alistDel
  rw [List.filter_eq_self]
  intro e he
  simpa using h e he

theorem alistDel_sublist {k : α} {es : List (α × β)} :
    (alistDel k es).Sublist es :=
  List.filter_sublist es

theorem alistGet_modify_self {k : α} {f : β → β} {es : List (α × β)} :
    alistGet k (alistModify k f es) = (alistGet k es).map f := by
  induction es with
  | nil => rfl
  | cons e rest ih =>
    unfold alistModify at ih ⊢
    by_cases hek : e.1 = k
    · simp [alistGet_cons, hek]
    · simp [alistGet_cons, hek, ih]

theorem alistGet_modify_ne {k k' : α} (h : k' ≠ k) {f : β → β}
    {es : List (α × β)} :
    alistGet k' (alistModify k f es) = alistGet k' es := by
  induction es with
  | nil => rfl
  | cons e rest ih =>
    unfold alistModify at ih ⊢
    have hkk : k ≠ k' := fun hc => h hc.symm
    by_cases hek : e.1 = k
    · have hne : e.1 ≠ k' := by
        intro hc
        exact h (hc.symm.trans hek)
      simp [alistGet_cons, hek, hne, hkk, ih]
    · by_cases hek' : e.1 = k'
      · simp [alistGet_cons, hek, hek', h, hkk]
      · simp [alistGet_cons, hek, hek', ih]

theorem mem_alistModify {k : α} {f : β → β} {es : List (α × β)} {e : α × β}
    (h : e ∈ alistModify k f es) :
    ∃ e' ∈ es, (e'.1 ≠ k ∧ e = e') ∨ (e'.1 = k ∧ e = (e'.1, f e'.2)) := by
  unfold alistModify at h
  obtain ⟨e', he', heq⟩ := List.mem_map.mp h
  refine ⟨e', he', ?_⟩
  by_cases hek : e'.1 = k
  · rw [if_pos hek] at heq
    subst heq
    exact Or.inr ⟨hek, rfl⟩
  · rw [if_neg hek] at heq
    subst heq
    exact Or.inl ⟨hek, rfl⟩

theorem alistModify_keys {k : α} {f : β → β} {es : List (α × β)} :
    (alistModify k f es).map Prod.fst = es.map Prod.fst := by
  unfold alistModify
  rw [List.map_map]
  apply List.map_congr_left
  intro e _
  by_cases hek : e.1 = k <;> simp [hek]

theorem alistGet_of_mem {es : List (α × β)} (hnd : (es.map Prod.fst).Nodup)
    {e : α × β} (he : e ∈ es) : alistGet e.1 es = some e.2 := by
  induction es with
  | nil => simp at he
  | cons e' rest ih =>
    rcases List.mem_cons.mp he with rfl | hmem
    · simp [alistGet_cons]
    · rw [alistGet_cons]
      have hne : e'.1 ≠ e.1 := by
        intro hc
        have : e.1 ∈ rest.map Prod.fst := List.mem_map_of_mem Prod.fst hmem
        rw [List.map_cons, List.nodup_cons] at hnd
        exact hnd.1 (hc ▸ this)
      simp only [hne, if_false]
      exact ih (by rw [List.map_cons, List.nodup_cons] at hnd; exact hnd.2) hmem

end AlistLemmas

/-! ## Lemmas about sorted insertion -/

section SortedInsertLemmas

variable {α : Type} {β : Type} [LinearOrder α]

theorem alistGet_insert_self {k : α} {s : β} {es : List (α × β)}
    (h : alistGet k es = none) :
    alistGet k (btInsertIfAbsent k s es) = some s := by
  induction es with
  | nil => simp [btInsertIfAbsent, alistGet_cons]
  | cons e rest ih =>
    rw [alistGet_cons] at h
    split at h
    · exact absurd h (by simp)
    · rename_i hne
      unfold btInsertIfAbsent
      by_cases hlt : k < e.1
      · simp [hlt, alistGet_cons]
      · have hkne : ¬ k = e.1 := fun hc => hne hc.symm
        simp only [if_neg hlt, if_neg hkne]
        rw [alistGet_cons, if_neg hne]
        exact ih h

theorem alistGet_insert_ne {k k' : α} (hne : k' ≠ k) {s : β}
    {es : List (α × β)} :
    alistGet k' (btInsertIfAbsent k s es) = alistGet k' es := by
  have hkk : ¬ k = k' := fun hc => hne hc.symm
  induction es with
  | nil => simp [btInsertIfAbsent, alistGet_cons, hkk]
  | cons e rest ih =>
    unfold btInsertIfAbsent
    by_cases hlt : k < e.1
    · rw [if_pos hlt, alistGet_cons]
      simp [hkk]
    · rw [if_neg hlt]
      by_cases heq : k = e.1
      · rw [if_pos heq]
      · rw [if_neg heq, alistGet_cons, alistGet_cons]
        split
        · rfl
        · exact ih

theorem mem_btInsertIfAbsent {k : α} {s : β} {es : List (α × β)} {e : α × β}
    (h : e ∈ btInsertIfAbsent k s es) : e = (k, s) ∨ e ∈ es := by
  induction es with
  | nil => simpa [btInsertIfAbsent] using h
  | cons e' rest ih =>
    unfold btInsertIfAbsent at h
    by_cases hlt : k < e'.1
    · rw [if_pos hlt] at h
      rcases List.mem_cons.mp h with rfl | hmem
      · exact Or.inl rfl
      · exact Or.inr hmem
    · rw [if_neg hlt] at h
      by_cases heq : k = e'.1
      · rw [if_pos heq] at h
        exact Or.inr h
      · rw [if_neg heq] at h
        rcases List.mem_cons.mp h with rfl | hmem
        · exact Or.inr (List.mem_cons_self _ _)
        · rcases ih hmem with h1 | h2
          · exact Or.inl h1
          · exact Or.inr (List.mem_cons_of_mem _ h2)

theorem pairwise_btInsertIfAbsent {k : α} {s : β} {es : List (α × β)}
    (h : es.Pairwise (fun a b => a.1 < b.1)) :
    (btInsertIfAbsent k s es).Pairwise (fun a b => a.1 < b.1) := by
  induction es with
  | nil => simp [btInsertIfAbsent]
  | cons e rest ih =>
    rw [List.pairwise_cons] at h
    unfold btInsertIfAbsent
    by_cases hlt : k < e.1
    · rw [if_pos hlt, List.pairwise_cons]
      constructor
      · intro a ha
        rcases List.mem_cons.mp ha with rfl | hmem
        · exact hlt
        · exact lt_trans hlt (h.1 a hmem)
      · rw [List.pairwise_cons]
        exact h
    · rw [if_neg hlt]
      by_cases heq : k = e.1
      · rw [if_pos heq, List.pairwise_cons]
        exact h
      · rw [if_neg heq, List.pairwise_cons]
        have hgt : e.1 < k := by
          rcases lt_trichotomy k e.1 with h1 | h1 | h1
          · exact absurd h1 hlt
          · exact absurd h1 heq
          · exact h1
        constructor
        · intro a ha
          rcases mem_btInsertIfAbsent ha with rfl | hmem
          · exact hgt
          · exact h.1 a hmem
        · exact ih h.2

theorem btInsertIfAbsent_of_get_some {k : α} {s : β} {b : β}
    {es : List (α × β)} (hsorted : es.Pairwise (fun a b => a.1 < b.1))
    (h : alistGet k es = some b) :
    btInsertIfAbsent k s es = es := by
  induction es with
  | nil => simp at h
  | cons e rest ih =>
    rw [List.pairwise_cons] at hsorted
    unfold btInsertIfAbsent
    by_cases hlt : k < e.1
    · exfalso
      have hk : (k, b) ∈ e :: rest := alistGet_mem h
      rcases List.mem_cons.mp hk with hc | hmem
      · have : e.1 = k := by rw [← hc]
        exact absurd (this ▸ hlt) (lt_irrefl _)
      · have : e.1 < k := by
          have := hsorted.1 (k, b) hmem
          simpa using this
        exact absurd (lt_trans hlt this) (lt_irrefl _)
    · rw [if_neg hlt]
      by_cases heq : k = e.1
      · rw [if_pos heq]
      · rw [if_neg heq]
        rw [alistGet_cons, if_neg (fun hc => heq hc.symm)] at h
        rw [ih hsorted.2 h]

end SortedInsertLemmas

/-! ## Flattening lemmas for the ordered traversals -/

theorem bucket_reverse_of_short {b : List String} (h : b.length ≤ 1) :
    b.reverse = b := by
  match b with
  | [] => rfl
  | [x] => rfl
  | x :: y :: t => simp at h

theorem flatten_reverse_of_short {L : List (List String)}
    (h : ∀ b ∈ L, b.length ≤ 1) :
    L.reverse.flatten = L.flatten.reverse := by
  rw [List.reverse_flatten]
  congr 1
  rw [List.map_congr_left (g := id)]
  · simp
  · intro b hb
    simpa using bucket_reverse_of_short (h b hb)

theorem mem_ascending {V : Type} {idx : BTreeFieldIndex V} {x : String} :
    x ∈ idx.ascending ↔ ∃ e ∈ idx.values, x ∈ e.2 := by
  unfold BTreeFieldIndex.ascending
  rw [JsSet.mem_ofList, List.mem_flatten]
  constructor
  · rintro ⟨b, hb, hx⟩
    obtain ⟨e, he, rfl⟩ := List.mem_map.mp hb
    exact ⟨e, he, hx⟩
  · rintro ⟨e, he, hx⟩
    exact ⟨e.2, List.mem_map_of_mem Prod.snd he, hx⟩

theorem mem_descending {V : Type} {idx : BTreeFieldIndex V} {x : String} :
    x ∈ idx.descending ↔ ∃ e ∈ idx.values, x ∈ e.2 := by
  unfold BTreeFieldIndex.descending
  rw [JsSet.mem_ofList, List.mem_flatten]
  constructor
  · rintro ⟨b, hb, hx⟩
    obtain ⟨e, he, rfl⟩ := List.mem_map.mp hb
    exact ⟨e, List.mem_reverse.mp he, hx⟩
  · rintro ⟨e, he, hx⟩
    exact ⟨e.2, List.mem_map_of_mem Prod.snd (List.mem_reverse.mpr he), hx⟩

/-- C1 (amended): for every `BTreeFieldIndex` state, `ascending()` and
`descending()` return the same set of document ids; and whenever every value
bucket holds at most one id (with no id duplicated across buckets),
`descending()` is exactly the reverse sequence of `ascending()`.  (In
general `descending()` reverses only the order of the value buckets, keeping
insertion order inside each bucket, so it is not the exact element-wise
reverse.) -/
theorem ascending_descending_same_ids_and_conditional_reverse
    {V : Type} (idx : BTreeFieldIndex V) :
    (∀ x : String, x ∈ idx.ascending ↔ x ∈ idx.descending) ∧
    ((∀ e ∈ idx.values, e.2.length ≤ 1) →
      ((idx.values.map Prod.snd).flatten).Nodup →
      idx.descending = idx.ascending.reverse) := by
  constructor
  · intro x
    rw [mem_ascending, mem_descending]
  · intro hshort hnd
    have hbuckets : ∀ b ∈ idx.values.map Prod.snd, b.length ≤ 1 := by
      intro b hb
      obtain ⟨e, he, rfl⟩ := List.mem_map.mp hb
      exact hshort e he
    have hrev : (idx.values.reverse.map Prod.snd).flatten =
        ((idx.values.map Prod.snd).flatten).reverse := by
      rw [List.map_reverse]
      exact flatten_reverse_of_short hbuckets
    unfold BTreeFieldIndex.ascending BTreeFieldIndex.descending
    rw [hrev, JsSet.ofList_of_nodup (List.nodup_reverse.mpr hnd),
      JsSet.ofList_of_nodup hnd]

/-- C1 (counterexample to the claim as stated): after `add("p1", 5)`,
`add("p2", 3)`, `add("p3", 5)` from empty, `ascending()` is
`["p2", "p1", "p3"]` but `descending()` is `["p1", "p3", "p2"]`, which is not
the reverse `["p3", "p1", "p2"]`: ids inside the shared bucket for value `5`
keep insertion order in both traversals. -/
theorem descending_not_exact_reverse_of_ascending :
    ((((BTreeFieldIndex.empty.add "p1" (5 : Int)).add "p2" 3).add "p3" 5).descending ≠
      ((((BTreeFieldIndex.empty.add "p1" (5 : Int)).add "p2" 3).add "p3" 5).ascending).reverse) ∧
    (((BTreeFieldIndex.empty.add "p1" (5 : Int)).add "p2" 3).add "p3" 5).descending =
      ["p1", "p3", "p2"] ∧
    (((BTreeFieldIndex.empty.add "p1" (5 : Int)).add "p2" 3).add "p3" 5).ascending =
      ["p2", "p1", "p3"] := by
  refine ⟨by decide, by decide, by decide⟩

/-- C1 witness: the amended theorem applied at a concrete two-id,
singleton-bucket state. -/
theorem ascending_descending_amended_witness :
    (((BTreeFieldIndex.empty.add "p2" (3 : Int)).add "p1" 5).descending =
      (((BTreeFieldIndex.empty.add "p2" (3 : Int)).add "p1" 5).ascending).reverse) ∧
    ("p1" ∈ ((BTreeFieldIndex.empty.add "p2" (3 : Int)).add "p1" 5).ascending ↔
      "p1" ∈ ((BTreeFieldIndex.empty.add "p2" (3 : Int)).add "p1" 5).descending) :=
  ⟨(ascending_descending_same_ids_and_conditional_reverse
      ((BTreeFieldIndex.empty.add "p2" (3 : Int)).add "p1" 5)).2
      (by decide) (by decide),
   (ascending_descending_same_ids_and_conditional_reverse
      ((BTreeFieldIndex.empty.add "p2" (3 : Int)).add "p1" 5)).1 "p1"⟩

/-- C2: `BTreeFieldIndex.equals(value)` never returns the unsupported
sentinel: it always returns some set, namely the bucket for `value` when one
exists and the explicit empty set when the value was never indexed. -/
theorem btree_equals_never_unsupported {V : Type} [LinearOrder V]
    (idx : BTreeFieldIndex V) (v : V) :
    idx.equals v ≠ none ∧
    ∃ s : JsSet, idx.equals v = some s ∧
      ∀ x : String, x ∈ s ↔ ∃ b, alistGet v idx.values = some b ∧ x ∈ b := by
  refine ⟨by simp [BTreeFieldIndex.equals], ?_⟩
  cases h : alistGet v idx.values with
  | none =>
    refine ⟨BTreeFieldIndex.EMPTY_SET, by simp [BTreeFieldIndex.equals, h], ?_⟩
    intro x
    simp [BTreeFieldIndex.EMPTY_SET, h]
  | some b =>
    refine ⟨b, by simp [BTreeFieldIndex.equals, h], ?_⟩
    intro x
    simp [h]

/-- C5: starting from an empty `BTreeFieldIndex`, after `add("p1", 5)`,
`add("p2", 3)`, `add("p3", 5)`: `ascending()` is `["p2", "p1", "p3"]` (one of
the two orders allowed, determined by insertion order within the value-5
bucket, and fixed across repeated calls since `ascending` is a pure function
of the state), and `equals(5)` is exactly `{"p1", "p3"}`. -/
theorem btree_concrete_scenario :
    (((BTreeFieldIndex.empty.add "p1" (5 : Int)).add "p2" 3).add "p3" 5).ascending =
      ["p2", "p1", "p3"] ∧
    (((BTreeFieldIndex.empty.add "p1" (5 : Int)).add "p2" 3).add "p3" 5).equals 5 =
      some ["p1", "p3"] := by
  refine ⟨by decide, by decide⟩

/-- C8: `IdFieldIndex.equals(v)` returns the unsupported sentinel whenever
`v` is not a string; on a string it returns the singleton `{v}` when the
membership function accepts `v` and the unsupported sentinel otherwise, and
every set it ever returns has exactly one element. -/
theorem id_equals_spec (ii : IdFieldIndex) (v : Literal) :
    (v.isString = false → ii.equals v = none) ∧
    (∀ s : String, v = Literal.strV s →
      (ii.lookup s = true → ii.equals v = some [s]) ∧
      (ii.lookup s = false → ii.equals v = none)) ∧
    (∀ r : JsSet, ii.equals v = some r → r.length = 1) := by
  cases v with
  | strV t =>
    refine ⟨by simp [Literal.isString], ?_, ?_⟩
    · intro s hs
      injection hs with h1
      subst h1
      constructor
      · intro hl
        simp [IdFieldIndex.equals, hl]
      · intro hl
        simp [IdFieldIndex.equals, hl]
    · intro r hr
      simp only [IdFieldIndex.equals] at hr
      split at hr
      · injection hr with h2
        subst h2
        rfl
      · exact absurd hr (by simp)
  | nullV => exact ⟨fun _ => rfl, fun s hs => by simp at hs, fun r hr => by simp [IdFieldIndex.equals] at hr⟩
  | boolV b => exact ⟨fun _ => rfl, fun s hs => by simp at hs, fun r hr => by simp [IdFieldIndex.equals] at hr⟩
  | numV n => exact ⟨fun _ => rfl, fun s hs => by simp at hs, fun r hr => by simp [IdFieldIndex.equals] at hr⟩
  | dateV t => exact ⟨fun _ => rfl, fun s hs => by simp at hs, fun r hr => by simp [IdFieldIndex.equals] at hr⟩
  | linkV p => exact ⟨fun _ => rfl, fun s hs => by simp at hs, fun r hr => by simp [IdFieldIndex.equals] at hr⟩
  | arrV xs => exact ⟨fun _ => rfl, fun s hs => by simp at hs, fun r hr => by simp [IdFieldIndex.equals] at hr⟩
  | objV fs => exact ⟨fun _ => rfl, fun s hs => by simp at hs, fun r hr => by simp [IdFieldIndex.equals] at hr⟩

/-- C8 witness: a concrete membership function accepting exactly `"a"`. -/
theorem id_equals_spec_witness :
    IdFieldIndex.equals ⟨["a"], fun t => t == "a"⟩ (Literal.strV "a") = some ["a"] :=
  ((id_equals_spec ⟨["a"], fun t => t == "a"⟩ (Literal.strV "a")).2.1 "a" rfl).1 (by decide)

/-- Replaying any mutation sequence leaves an `EverythingFieldIndex`
unchanged: `add` and `delete` are no-ops. -/
theorem EverythingFieldIndex.replay_eq {V : Type} (e : EverythingFieldIndex)
    (ops : List (Op V)) : e.replay ops = e := by
  induction ops generalizing e with
  | nil => rfl
  | cons op rest ih => cases op <;> exact ih e

/-- C9: for an `EverythingFieldIndex` built over an enumeration closure,
after any sequence of `add`/`delete` calls, `all()` is exactly the
closure's result, and `equals`/`ascending`/`descending` all report
unsupported. -/
theorem everything_replay_observables {V : Type} (e : EverythingFieldIndex)
    (ops : List (Op V)) (v : V) :
    (e.replay ops).all = e.allF ∧
    (e.replay ops).equals v = none ∧
    (e.replay ops).ascending = none ∧
    (e.replay ops).descending = none := by
  rw [EverythingFieldIndex.replay_eq]
  exact ⟨rfl, rfl, rfl, rfl⟩

/-! ## Presence tracking under replay -/

/-- `BTreeFieldIndex.add` touches `present` exactly like `SetFieldIndex.add`. -/
theorem BTreeFieldIndex.add_present {V : Type} [LinearOrder V]
    (idx : BTreeFieldIndex V) (id : String) (v : V) :
    (idx.add id v).present = idx.present.addElem id := rfl

/-- `BTreeFieldIndex.delete` removes the id from `present` in every branch. -/
theorem BTreeFieldIndex.delete_present {V : Type} [LinearOrder V]
    (idx : BTreeFieldIndex V) (id : String) (v : V) :
    (idx.delete id v).present = idx.present.erase id := by
  unfold BTreeFieldIndex.delete
  cases h : alistGet v idx.values with
  | none => rfl
  | some s =>
    simp only
    split <;> rfl

theorem set_replay_presence_aux {V : Type} (ops : List (Op V)) :
    ∀ (p : JsSet) (b : Bool) (id : String), p.Nodup → (id ∈ p ↔ b = true) →
      (ops.foldl SetFieldIndex.step ⟨p⟩).present.Nodup ∧
      (id ∈ (ops.foldl SetFieldIndex.step ⟨p⟩).present ↔
        (ops.foldl (fun acc op => match op with
          | Op.add i _ => if i = id then true else acc
          | Op.del i _ => if i = id then false else acc) b) = true) := by
  induction ops with
  | nil =>
    intro p b id hnd hiff
    exact ⟨hnd, hiff⟩
  | cons op rest ih =>
    intro p b id hnd hiff
    cases op with
    | add i v =>
      have hstep : SetFieldIndex.step ⟨p⟩ (Op.add i v) = ⟨p.addElem i⟩ := rfl
      rw [List.foldl_cons, hstep, List.foldl_cons]
      refine ih (p.addElem i) _ id (JsSet.nodup_addElem hnd i) ?_
      by_cases hid : i = id
      · subst hid
        simp [JsSet.mem_addElem]
      · have : ¬ id = i := fun hc => hid hc.symm
        simp only [hid, if_false]
        rw [JsSet.mem_addElem]
        simp [this, hiff]
    | del i v =>
      have hstep : SetFieldIndex.step ⟨p⟩ (Op.del i v) = ⟨p.erase i⟩ := rfl
      rw [List.foldl_cons, hstep, List.foldl_cons]
      refine ih (p.erase i) _ id (List.Nodup.erase i hnd) ?_
      by_cases hid : i = id
      · subst hid
        simp [List.Nodup.mem_erase_iff hnd]
      · have : id ≠ i := fun hc => hid hc.symm
        simp only [hid, if_false]
        rw [List.Nodup.mem_erase_iff hnd]
        simp [this, hiff]

theorem btree_replay_presence_aux {V : Type} [LinearOrder V] (ops : List (Op V)) :
    ∀ (idx : BTreeFieldIndex V) (b : Bool) (id : String),
      idx.present.Nodup → (id ∈ idx.present ↔ b = true) →
      (ops.foldl BTreeFieldIndex.step idx).present.Nodup ∧
      (id ∈ (ops.foldl BTreeFieldIndex.step idx).present ↔
        (ops.foldl (fun acc op => match op with
          | Op.add i _ => if i = id then true else acc
          | Op.del i _ => if i = id then false else acc) b) = true) := by
  induction ops with
  | nil =>
    intro idx b id hnd hiff
    exact ⟨hnd, hiff⟩
  | cons op rest ih =>
    intro idx b id hnd hiff
    cases op with
    | add i v =>
      rw [List.foldl_cons, List.foldl_cons]
      have hpres : (BTreeFieldIndex.step idx (Op.add i v)).present
          = idx.present.addElem i := rfl
      refine (?_ : _ ∧ _)
      have hnd' : (BTreeFieldIndex.step idx (Op.add i v)).present.Nodup := by
        rw [hpres]; exact JsSet.nodup_addElem hnd i
      refine ih _ _ id hnd' ?_
      rw [hpres]
      by_cases hid : i = id
      · subst hid
        simp [JsSet.mem_addElem]
      · have : ¬ id = i := fun hc => hid hc.symm
        simp only [hid, if_false]
        rw [JsSet.mem_addElem]
        simp [this, hiff]
    | del i v =>
      rw [List.foldl_cons, List.foldl_cons]
      have hpres : (BTreeFieldIndex.step idx (Op.del i v)).present
          = idx.present.erase i := BTreeFieldIndex.delete_present idx i v
      have hnd' : (BTreeFieldIndex.step idx (Op.del i v)).present.Nodup := by
        rw [hpres]; exact List.Nodup.erase i hnd
      refine ih _ _ id hnd' ?_
      rw [hpres]
      by_cases hid : i = id
      · subst hid
        simp [List.Nodup.mem_erase_iff hnd]
      · have : id ≠ i := fun hc => hid hc.symm
        simp only [hid, if_false]
        rw [List.Nodup.mem_erase_iff hnd]
        simp [this, hiff]

/-- C7 (amended): for every mutation sequence replayed on an initially empty
`SetFieldIndex` or `BTreeFieldIndex`, `all()` contains exactly the ids whose
last `add`/`delete` call in the sequence is an `add` — the currently-present
ids under set semantics. -/
theorem all_replay_eq_currently_present {V : Type} [LinearOrder V]
    (ops : List (Op V)) (id : String) :
    (id ∈ (SetFieldIndex.replay ops).all ↔ presentAfter ops id = true) ∧
    (id ∈ (BTreeFieldIndex.replay (V := V) ops).all ↔ presentAfter ops id = true) := by
  constructor
  · exact (set_replay_presence_aux ops [] false id (by simp) (by simp)).2
  · exact (btree_replay_presence_aux ops BTreeFieldIndex.empty false id
      (by simp [BTreeFieldIndex.empty]) (by simp [BTreeFieldIndex.empty])).2

/-- C7 (counterexample to the claim as stated): for the sequence
`add(p, 1); add(p, 1); delete(p, 1)` the net add-count (2) exceeds the
delete-count (1), yet `all()` excludes `p` on both implementations, because
`add` into a set is idempotent. -/
theorem net_count_characterization_fails :
    countAdds [Op.add "p" (1 : Int), Op.add "p" 1, Op.del "p" 1] "p" = 2 ∧
    countDels [Op.add "p" (1 : Int), Op.add "p" 1, Op.del "p" 1] "p" = 1 ∧
    "p" ∉ (SetFieldIndex.replay [Op.add "p" (1 : Int), Op.add "p" 1, Op.del "p" 1]).all ∧
    "p" ∉ (BTreeFieldIndex.replay [Op.add "p" (1 : Int), Op.add "p" 1, Op.del "p" 1]).all := by
  refine ⟨by decide, by decide, by decide, by decide⟩

/-! ## Deleting a pair that was never added -/

/-- Removing entries whose buckets are all empty does not change the
flattened traversal. -/
theorem flatten_filter_of_empty_dropped {V : Type} {es : List (V × JsSet)}
    {P : V × JsSet → Bool} (h : ∀ e ∈ es, P e = false → e.2 = []) :
    ((es.filter P).map Prod.snd).flatten = (es.map Prod.snd).flatten := by
  induction es with
  | nil => rfl
  | cons e rest ih =>
    have hrest : ∀ e' ∈ rest, P e' = false → e'.2 = [] := fun e' he' =>
      h e' (List.mem_cons_of_mem e he')
    cases hP : P e with
    | true =>
      rw [List.filter_cons_of_pos hP, List.map_cons, List.map_cons,
        List.flatten_cons, List.flatten_cons, ih hrest]
    | false =>
      rw [List.filter_cons_of_neg (by simp [hP]), List.map_cons,
        List.flatten_cons, h e (List.mem_cons_self e rest) hP, ih hrest]
      rfl

/-- If every entry keyed `k` has bucket `f`-invariant, `alistModify` is the
identity. -/
theorem alistModify_congr_id {α β : Type} [DecidableEq α] {k : α} {f : β → β}
    {es : List (α × β)} (h : ∀ e ∈ es, e.1 = k → f e.2 = e.2) :
    alistModify k f es = es := by
  unfold alistModify
  have : ∀ e ∈ es, (if e.1 = k then (e.1, f e.2) else e) = id e := by
    intro e he
    by_cases hek : e.1 = k
    · simp only [if_pos hek, h e he hek, Prod.mk.eta, id]
    · simp only [if_neg hek, id]
  rw [List.map_congr_left this, List.map_id]

/-- C3 (amended): for each of the four `FieldIndex` implementations, deleting
a pair `(id, value)` whose id is not currently indexed (hence in particular a
pair that was never added) raises no error — all operations are total — and
leaves every observable (`all`, `equals`, `ascending`, `descending`)
unchanged.  For `EverythingFieldIndex` and `IdFieldIndex` this holds
unconditionally; for `SetFieldIndex` and `BTreeFieldIndex` it needs the id to
be absent (the source deletes the id from `present` even when the supplied
value never accompanied it, so deleting a never-added pair whose id is
present under a *different* value does mutate the state). -/
theorem delete_never_added_noop {V : Type} [LinearOrder V] (id : String)
    (vL : Literal) (w : V) (e : EverythingFieldIndex) (ii : IdFieldIndex)
    (s : SetFieldIndex) (b : BTreeFieldIndex V)
    (hs : id ∉ s.present)
    (hb1 : id ∉ b.present)
    (hb2 : id ∉ (b.values.map Prod.snd).flatten)
    (hb3 : (b.values.map Prod.fst).Nodup) :
    e.delete id w = e ∧
    ii.delete id vL = ii ∧
    s.delete id w = s ∧
    (b.delete id w).all = b.all ∧
    BTreeFieldIndex.equals (b.delete id w) = BTreeFieldIndex.equals b ∧
    (b.delete id w).ascending = b.ascending ∧
    (b.delete id w).descending = b.descending := by
  have hpres : b.present.erase id = b.present := List.erase_of_not_mem hb1
  have hbuckets : ∀ e' ∈ b.values, id ∉ e'.2 := by
    intro e' he' hmem
    exact hb2 (List.mem_flatten.mpr ⟨e'.2, List.mem_map_of_mem Prod.snd he', hmem⟩)
  refine ⟨rfl, rfl, ?_, ?_, ?_, ?_, ?_⟩
  · unfold SetFieldIndex.delete
    rw [List.erase_of_not_mem hs]
  · show (b.delete id w).present = b.present
    rw [BTreeFieldIndex.delete_present, hpres]
  · funext u
    unfold BTreeFieldIndex.delete
    cases h : alistGet w b.values with
    | none =>
      simp only
      rw [alistDel_of_get_none h]
      rfl
    | some sb =>
      have hid : id ∉ sb := hbuckets (w, sb) (alistGet_mem h)
      have herase : sb.erase id = sb := List.erase_of_not_mem hid
      simp only [herase]
      by_cases hnil : sb = []
      · rw [if_pos hnil]
        unfold BTreeFieldIndex.equals
        by_cases huw : u = w
        · subst huw
          rw [alistGet_del_self, h, hnil]
          rfl
        · rw [alistGet_del_ne huw]
      · rw [if_neg hnil]
        unfold BTreeFieldIndex.equals
        congr 1
        rw [alistModify_congr_id]
        intro e' he' _
        exact List.erase_of_not_mem (hbuckets e' he')
  · unfold BTreeFieldIndex.delete
    cases h : alistGet w b.values with
    | none =>
      simp only
      rw [alistDel_of_get_none h]
      rfl
    | some sb =>
      have hid : id ∉ sb := hbuckets (w, sb) (alistGet_mem h)
      have herase : sb.erase id = sb := List.erase_of_not_mem hid
      simp only [herase]
      by_cases hnil : sb = []
      · rw [if_pos hnil]
        unfold BTreeFieldIndex.ascending
        congr 1
        apply flatten_filter_of_empty_dropped
        intro e' he' hP
        have hek : e'.1 = w := by
          by_contra hc
          simp [hc] at hP
        have : alistGet e'.1 b.values = some e'.2 := alistGet_of_mem hb3 he'
        rw [hek, h] at this
        injection this with h2
        rw [← h2, hnil]
      · rw [if_neg hnil]
        unfold BTreeFieldIndex.ascending
        congr 2
        rw [alistModify_congr_id]
        intro e' he' _
        exact List.erase_of_not_mem (hbuckets e' he')
  · unfold BTreeFieldIndex.delete
    cases h : alistGet w b.values with
    | none =>
      simp only
      rw [alistDel_of_get_none h]
      rfl
    | some sb =>
      have hid : id ∉ sb := hbuckets (w, sb) (alistGet_mem h)
      have herase : sb.erase id = sb := List.erase_of_not_mem hid
      simp only [herase]
      by_cases hnil : sb = []
      · rw [if_pos hnil]
        unfold BTreeFieldIndex.descending
        congr 1
        unfold alistDel
        rw [← List.filter_reverse]
        apply flatten_filter_of_empty_dropped
        intro e' he' hP
        have he'' : e' ∈ b.values := List.mem_reverse.mp he'
        have hek : e'.1 = w := by
          by_contra hc
          simp [hc] at hP
        have : alistGet e'.1 b.values = some e'.2 := alistGet_of_mem hb3 he''
        rw [hek, h] at this
        injection this with h2
        rw [← h2, hnil]
      · rw [if_neg hnil]
        unfold BTreeFieldIndex.descending
        congr 2
        rw [alistModify_congr_id]
        intro e' he' _
        exact List.erase_of_not_mem (hbuckets e' he')

/-- C3 (counterexample to the claim as stated): with `p` present under value
`3`, deleting the never-added pair `(p, 5)` is *not* a no-op: it removes `p`
from `present`, changing `all()` on both `SetFieldIndex` and
`BTreeFieldIndex`. -/
theorem delete_never_added_changes_state :
    ((SetFieldIndex.empty.add "p" (3 : Int)).delete "p" (5 : Int)).all ≠
      (SetFieldIndex.empty.add "p" (3 : Int)).all ∧
    ((BTreeFieldIndex.empty.add "p" (3 : Int)).delete "p" 5).all ≠
      (BTreeFieldIndex.empty.add "p" (3 : Int)).all := by
  refine ⟨by decide, by decide⟩

/-- C3 witness: the amended no-op theorem applied at concrete states not
containing the id `x`. -/
theorem delete_never_added_noop_witness :
    SetFieldIndex.delete ⟨["q"]⟩ "x" (7 : Int) = ⟨["q"]⟩ ∧
    BTreeFieldIndex.equals ((BTreeFieldIndex.empty.add "q" (7 : Int)).delete "x" 7) =
      BTreeFieldIndex.equals (BTreeFieldIndex.empty.add "q" (7 : Int)) ∧
    ((BTreeFieldIndex.empty.add "q" (7 : Int)).delete "x" 7).ascending =
      (BTreeFieldIndex.empty.add "q" (7 : Int)).ascending :=
  ⟨(delete_never_added_noop "x" Literal.nullV (7 : Int) ⟨["a"]⟩
      ⟨["a"], fun t => t == "a"⟩ ⟨["q"]⟩ (BTreeFieldIndex.empty.add "q" 7)
      (by decide) (by decide) (by decide) (by decide)).2.2.1,
   (delete_never_added_noop "x" Literal.nullV (7 : Int) ⟨["a"]⟩
      ⟨["a"], fun t => t == "a"⟩ ⟨["q"]⟩ (BTreeFieldIndex.empty.add "q" 7)
      (by decide) (by decide) (by decide) (by decide)).2.2.2.2.1,
   (delete_never_added_noop "x" Literal.nullV (7 : Int) ⟨["a"]⟩
      ⟨["a"], fun t => t == "a"⟩ ⟨["q"]⟩ (BTreeFieldIndex.empty.add "q" 7)
      (by decide) (by decide) (by decide) (by decide)).2.2.2.2.2.1⟩

/-! ## Round-trip add then delete -/

/-- Inserting under a key that is already present either keeps the existing
bucket in lookup position or exposes the newly inserted one. -/
theorem alistGet_insert_self_or {α β : Type} [LinearOrder α] {k : α}
    {s b : β} {es : List (α × β)} (h : alistGet k es = some b) :
    alistGet k (btInsertIfAbsent k s es) = some s ∨
    alistGet k (btInsertIfAbsent k s es) = some b := by
  induction es with
  | nil => simp at h
  | cons e rest ih =>
    unfold btInsertIfAbsent
    by_cases hlt : k < e.1
    · rw [if_pos hlt, alistGet_cons]
      simp
    · rw [if_neg hlt]
      by_cases heq : k = e.1
      · rw [if_pos heq]
        exact Or.inr h
      · rw [if_neg heq, alistGet_cons]
        have hne : ¬ e.1 = k := fun hc => heq hc.symm
        rw [if_neg hne]
        rw [alistGet_cons, if_neg hne] at h
        exact ih h

/-- C6 (amended): from any `BTreeFieldIndex` state with a duplicate-free
`present` set in which no document currently holds value `v` (i.e.
`equals(v)` is empty), after `add(id, v)` followed by `delete(id, v)`,
`equals(v)` returns an (explicit) empty set and `all()` does not contain
`id`. -/
theorem add_delete_roundtrip {V : Type} [LinearOrder V]
    (idx : BTreeFieldIndex V) (id : String) (v : V)
    (hnd : idx.present.Nodup) (hv : idx.equals v = some []) :
    ((idx.add id v).delete id v).equals v = some [] ∧
    id ∉ ((idx.add id v).delete id v).all := by
  have hgetD : (alistGet v idx.values).getD BTreeFieldIndex.EMPTY_SET = [] := by
    unfold BTreeFieldIndex.equals at hv
    injection hv
  have hins : alistGet v (btInsertIfAbsent v ([] : JsSet) idx.values) = some [] := by
    cases h : alistGet v idx.values with
    | none => exact alistGet_insert_self h
    | some sb =>
      have hsb : sb = [] := by
        rw [h] at hgetD
        exact hgetD
      subst hsb
      rcases alistGet_insert_self_or (s := ([] : JsSet)) h with h1 | h1 <;> exact h1
  have hget1 : alistGet v (idx.add id v).values = some [id] := by
    show alistGet v (alistModify v (fun b => JsSet.addElem b id)
      (btInsertIfAbsent v [] idx.values)) = some [id]
    rw [alistGet_modify_self, hins]
    rfl
  constructor
  · unfold BTreeFieldIndex.delete
    rw [hget1]
    simp only
    have herase : ([id] : JsSet).erase id = [] := List.erase_cons_head id []
    rw [herase, if_pos rfl]
    unfold BTreeFieldIndex.equals
    rw [alistGet_del_self]
    rfl
  · show id ∉ ((idx.add id v).delete id v).present
    rw [BTreeFieldIndex.delete_present]
    show id ∉ ((idx.present.addElem id).erase id)
    intro hmem
    rw [List.Nodup.mem_erase_iff (JsSet.nodup_addElem hnd id)] at hmem
    exact hmem.1 rfl

/-- C6 (counterexample to the claim as stated): from a state in which `q`
already holds value `5`, after `add(p, 5)` then `delete(p, 5)`, `equals(5)`
is `{"q"}` — not an empty set. -/
theorem add_delete_roundtrip_fails_with_other_ids :
    (((BTreeFieldIndex.empty.add "q" (5 : Int)).add "p" 5).delete "p" 5).equals 5 =
      some ["q"] ∧
    (((BTreeFieldIndex.empty.add "q" (5 : Int)).add "p" 5).delete "p" 5).equals 5 ≠
      some [] := by
  refine ⟨by decide, by decide⟩

/-- C6 witness: the amended round-trip applied from the empty index. -/
theorem add_delete_roundtrip_witness :
    (((BTreeFieldIndex.empty (V := Int)).add "p" 5).delete "p" 5).equals 5 = some [] ∧
    "p" ∉ (((BTreeFieldIndex.empty (V := Int)).add "p" 5).delete "p" 5).all :=
  add_delete_roundtrip BTreeFieldIndex.empty "p" 5 (by decide) (by decide)

/-! ## Reference behaviour of `all()` -/

theorem heapRead_write_self {h : List JsSet} {r : Nat} {s : JsSet}
    (hr : r < h.length) : heapRead (heapWrite h r s) r = s := by
  unfold heapRead heapWrite
  rw [List.getD_eq_getElem?_getD, List.getElem?_set_self hr]
  rfl

/-- The heap returned by `BTreeFieldIndexRef.deleteR` is the present-cell
update, in every branch of the bucket bookkeeping. -/
theorem BTreeFieldIndexRef.deleteR_heap {V : Type} [LinearOrder V]
    (p : BTreeFieldIndexRef V) (id : String) (v : V) (h : List JsSet) :
    (p.deleteR id v h).2 =
      heapWrite h p.presentRef ((heapRead h p.presentRef).erase id) := by
  unfold BTreeFieldIndexRef.deleteR
  cases alistGet v p.values with
  | none => rfl
  | some s =>
    simp only
    split <;> rfl

/-- C10: `all()` on `SetFieldIndex` and `BTreeFieldIndex` returns the
reference to the internal `present` set, not a copy: the set previously
returned by `all()` observes a later `add` (it then contains the id) and a
later `delete` (it then no longer contains the id). -/
theorem all_returns_live_reference {V : Type} [LinearOrder V]
    (id : String) (w : V) (o : SetFieldIndexRef) (h : List JsSet)
    (p : BTreeFieldIndexRef V) (hp : List JsSet)
    (ho : o.presentRef < h.length)
    (hnd : (heapRead h o.presentRef).Nodup)
    (hpo : p.presentRef < hp.length)
    (hnd2 : (heapRead hp p.presentRef).Nodup) :
    (id ∈ heapRead (o.addR id w h) o.allR ∧
     id ∉ heapRead (o.deleteR id w (o.addR id w h)) o.allR) ∧
    (id ∈ heapRead ((p.addR id w hp).2) p.allR ∧
     id ∉ heapRead (((p.addR id w hp).1.deleteR id w ((p.addR id w hp).2)).2)
       p.allR) := by
  constructor
  · have hread1 : heapRead (o.addR id w h) o.presentRef
        = (heapRead h o.presentRef).addElem id :=
      heapRead_write_self ho
    constructor
    · show id ∈ heapRead (o.addR id w h) o.presentRef
      rw [hread1, JsSet.mem_addElem]
      exact Or.inr rfl
    · show id ∉ heapRead (o.deleteR id w (o.addR id w h)) o.presentRef
      have hlen : o.presentRef < (o.addR id w h).length := by
        unfold SetFieldIndexRef.addR heapWrite
        rw [List.length_set]
        exact ho
      have hread2 : heapRead (o.deleteR id w (o.addR id w h)) o.presentRef
          = (heapRead (o.addR id w h) o.presentRef).erase id :=
        heapRead_write_self hlen
      rw [hread2, hread1]
      intro hmem
      rw [List.Nodup.mem_erase_iff (JsSet.nodup_addElem hnd id)] at hmem
      exact hmem.1 rfl
  · have hread1 : heapRead ((p.addR id w hp).2) p.presentRef
        = (heapRead hp p.presentRef).addElem id :=
      heapRead_write_self hpo
    constructor
    · show id ∈ heapRead ((p.addR id w hp).2) p.presentRef
      rw [hread1, JsSet.mem_addElem]
      exact Or.inr rfl
    · show id ∉ heapRead (((p.addR id w hp).1.deleteR id w ((p.addR id w hp).2)).2)
        p.presentRef
      have hsame : (p.addR id w hp).1.presentRef = p.presentRef := rfl
      have hlen : p.presentRef < ((p.addR id w hp).2).length := by
        show p.presentRef < (heapWrite hp p.presentRef
          ((heapRead hp p.presentRef).addElem id)).length
        unfold heapWrite
        rw [List.length_set]
        exact hpo
      rw [BTreeFieldIndexRef.deleteR_heap, hsame]
      have hread2 : heapRead (heapWrite ((p.addR id w hp).2) p.presentRef
          ((heapRead ((p.addR id w hp).2) p.presentRef).erase id)) p.presentRef
          = (heapRead ((p.addR id w hp).2) p.presentRef).erase id :=
        heapRead_write_self hlen
      rw [hread2, hread1]
      intro hmem
      rw [List.Nodup.mem_erase_iff (JsSet.nodup_addElem hnd2 id)] at hmem
      exact hmem.1 rfl

/-- C10 witness: a one-cell store holding the `present` set of each index. -/
theorem all_returns_live_reference_witness :
    (("p" ∈ heapRead (SetFieldIndexRef.addR ⟨0⟩ "p" (1 : Int) [[]])
        (SetFieldIndexRef.allR ⟨0⟩)) ∧
     ("p" ∉ heapRead (SetFieldIndexRef.deleteR ⟨0⟩ "p" (1 : Int)
        (SetFieldIndexRef.addR ⟨0⟩ "p" (1 : Int) [[]])) (SetFieldIndexRef.allR ⟨0⟩))) ∧
    (("p" ∈ heapRead ((BTreeFieldIndexRef.addR (⟨0, []⟩ : BTreeFieldIndexRef Int) "p" (1 : Int) [[]]).2)
        (BTreeFieldIndexRef.allR (⟨0, []⟩ : BTreeFieldIndexRef Int))) ∧
     ("p" ∉ heapRead (((BTreeFieldIndexRef.addR (⟨0, []⟩ : BTreeFieldIndexRef Int) "p" (1 : Int) [[]]).1.deleteR
          "p" (1 : Int) ((BTreeFieldIndexRef.addR (⟨0, []⟩ : BTreeFieldIndexRef Int) "p" (1 : Int) [[]]).2)).2)
        (BTreeFieldIndexRef.allR (⟨0, []⟩ : BTreeFieldIndexRef Int)))) :=
  all_returns_live_reference "p" (1 : Int) ⟨0⟩ [[]] ⟨0, []⟩ [[]]
    (by decide) (by decide) (by decide) (by decide)

/-! ## The Ordered Value Index invariant -/

theorem alistGet_eq_none_iff_keys {α β : Type} [DecidableEq α] {k : α}
    {es : List (α × β)} :
    alistGet k es = none ↔ k ∉ es.map Prod.fst := by
  rw [alistGet_eq_none]
  constructor
  · intro h hk
    obtain ⟨e, he, heq⟩ := List.mem_map.mp hk
    exact h e he heq
  · intro h e he heq
    exact h (List.mem_map.mpr ⟨e, he, heq⟩)

theorem keys_nodup_of_sorted {V : Type} [LinearOrder V] {es : List (V × JsSet)}
    (h : es.Pairwise (fun a b => a.1 < b.1)) :
    (es.map Prod.fst).Nodup := by
  rw [List.Nodup, List.pairwise_map]
  exact h.imp ne_of_lt

theorem pairwise_keys_alistModify {α β : Type} [DecidableEq α]
    [LT α] {k : α} {f : β → β} {es : List (α × β)}
    (h : es.Pairwise (fun a b => a.1 < b.1)) :
    (alistModify k f es).Pairwise (fun a b => a.1 < b.1) := by
  unfold alistModify
  rw [List.pairwise_map]
  refine h.imp ?_
  intro a b hab
  have h1 : ((if a.1 = k then (a.1, f a.2) else a).1) = a.1 := by
    by_cases ha : a.1 = k <;> simp [ha]
  have h2 : ((if b.1 = k then (b.1, f b.2) else b).1) = b.1 := by
    by_cases hb : b.1 = k <;> simp [hb]
  show ((if a.1 = k then (a.1, f a.2) else a).1) < ((if b.1 = k then (b.1, f b.2) else b).1)
  rw [h1, h2]
  exact hab

theorem erase_nil_all {b : JsSet} {id : String} (hnd : b.Nodup)
    (h : b.erase id = []) : ∀ i ∈ b, i = id := by
  intro i hi
  by_contra hne
  have hmem : i ∈ b.erase id := (List.Nodup.mem_erase_iff hnd).mpr ⟨hne, hi⟩
  rw [h] at hmem
  simp at hmem

/-- The invariant of the empty index against the empty ghost map. -/
theorem btreeInv_empty {V : Type} [LinearOrder V] :
    BTreeInv (BTreeFieldIndex.empty (V := V)) [] := by
  refine ⟨?_, ?_, ?_, ?_, ?_, ?_, ?_⟩
  · simp [BTreeFieldIndex.empty]
  · simp
  · intro i
    simp [BTreeFieldIndex.empty]
  · intro i u
    simp [BTreeFieldIndex.empty]
  · intro e he
    simp [BTreeFieldIndex.empty] at he
  · intro e he
    simp [BTreeFieldIndex.empty] at he
  · simp [BTreeFieldIndex.empty]

/-- A disciplined `add` preserves the Ordered Value Index invariant. -/
theorem btreeInv_step_add {V : Type} [LinearOrder V] {idx : BTreeFieldIndex V}
    {g g' : List (String × V)} {id : String} {v : V}
    (inv : BTreeInv idx g) (hstep : ghostStep g (Op.add id v) = some g') :
    BTreeInv (idx.add id v) g' := by
  have hkeys : (idx.values.map Prod.fst).Nodup := keys_nodup_of_sorted inv.sorted
  unfold ghostStep at hstep
  simp only at hstep
  cases hg : alistGet id g with
  | none =>
    rw [hg] at hstep
    simp only at hstep
    injection hstep with hg'
    subst hg'
    have hidpres : id ∉ idx.present := by
      rw [inv.presIff id, hg]
      simp
    have hnobucket : ∀ u : V, ¬ ∃ b, alistGet u idx.values = some b ∧ id ∈ b := by
      intro u hu
      have hcon := (inv.bucketIff id u).mp hu
      rw [hg] at hcon
      simp at hcon
    cases hbv : alistGet v idx.values with
    | none =>
      have hins : alistGet v (btInsertIfAbsent v ([] : JsSet) idx.values) = some [] :=
        alistGet_insert_self hbv
      have hgetv : alistGet v (idx.add id v).values = some [id] := by
        show alistGet v (alistModify v (fun b => JsSet.addElem b id)
          (btInsertIfAbsent v [] idx.values)) = some [id]
        rw [alistGet_modify_self, hins]
        rfl
      have hgetu : ∀ u : V, u ≠ v →
          alistGet u (idx.add id v).values = alistGet u idx.values := by
        intro u hu
        show alistGet u (alistModify v (fun b => JsSet.addElem b id)
          (btInsertIfAbsent v [] idx.values)) = alistGet u idx.values
        rw [alistGet_modify_ne hu, alistGet_insert_ne hu]
      refine ⟨?_, ?_, ?_, ?_, ?_, ?_, ?_⟩
      · exact JsSet.nodup_addElem inv.presNodup id
      · rw [List.map_cons]
        exact List.nodup_cons.mpr
          ⟨alistGet_eq_none_iff_keys.mp hg, inv.ghostKeysNodup⟩
      · intro i
        show i ∈ idx.present.addElem id ↔ _
        rw [JsSet.mem_addElem, alistGet_cons]
        by_cases hid : id = i
        · subst hid
          simp
        · rw [if_neg hid]
          have hne : ¬ i = id := fun hc => hid hc.symm
          simp only [hne, or_false]
          exact inv.presIff i
      · intro i u
        rw [alistGet_cons]
        by_cases huv : u = v
        · subst huv
          constructor
          · rintro ⟨b, hb, hib⟩
            rw [hgetv] at hb
            injection hb with hb2
            subst hb2
            rw [List.mem_singleton] at hib
            subst hib
            simp
          · intro hr
            by_cases hid : id = i
            · subst hid
              refine ⟨[id], hgetv, by simp⟩
            · rw [if_neg hid] at hr
              obtain ⟨b, hb, _⟩ := (inv.bucketIff i u).mpr hr
              rw [hbv] at hb
              cases hb
        · rw [hgetu u huv]
          by_cases hid : id = i
          · subst hid
            rw [if_pos rfl]
            constructor
            · intro hl
              exact absurd hl (hnobucket u)
            · intro hr
              injection hr with h2
              exact absurd h2.symm huv
          · rw [if_neg hid]
            exact inv.bucketIff i u
      · intro e he
        have he' : e ∈ alistModify v (fun b => JsSet.addElem b id)
            (btInsertIfAbsent v [] idx.values) := he
        obtain ⟨e', hmem, hcase⟩ := mem_alistModify he'
        rcases mem_btInsertIfAbsent hmem with rfl | hmem'
        · rcases hcase with ⟨hne, _⟩ | ⟨_, heq⟩
          · exact absurd rfl hne
          · rw [heq]
            show JsSet.addElem [] id ≠ []
            exact JsSet.addElem_ne_nil
        · have hne' : e'.1 ≠ v := by
            intro hc
            rw [alistGet_eq_none] at hbv
            exact hbv e' hmem' hc
          rcases hcase with ⟨_, heq⟩ | ⟨heqk, _⟩
          · rw [heq]
            exact inv.bucketsNE e' hmem'
          · exact absurd heqk hne'
      · intro e he
        have he' : e ∈ alistModify v (fun b => JsSet.addElem b id)
            (btInsertIfAbsent v [] idx.values) := he
        obtain ⟨e', hmem, hcase⟩ := mem_alistModify he'
        rcases mem_btInsertIfAbsent hmem with rfl | hmem'
        · rcases hcase with ⟨hne, _⟩ | ⟨_, heq⟩
          · exact absurd rfl hne
          · rw [heq]
            show (JsSet.addElem [] id).Nodup
            exact JsSet.nodup_addElem List.nodup_nil id
        · have hne' : e'.1 ≠ v := by
            intro hc
            rw [alistGet_eq_none] at hbv
            exact hbv e' hmem' hc
          rcases hcase with ⟨_, heq⟩ | ⟨heqk, _⟩
          · rw [heq]
            exact inv.bucketsNodup e' hmem'
          · exact absurd heqk hne'
      · show (alistModify v (fun b => JsSet.addElem b id)
          (btInsertIfAbsent v [] idx.values)).Pairwise (fun a b => a.1 < b.1)
        exact pairwise_keys_alistModify (pairwise_btInsertIfAbsent inv.sorted)
    | some b =>
      have hinsEq : btInsertIfAbsent v ([] : JsSet) idx.values = idx.values :=
        btInsertIfAbsent_of_get_some inv.sorted hbv
      have hvalsEq : (idx.add id v).values
          = alistModify v (fun s => JsSet.addElem s id) idx.values := by
        show alistModify v (fun s => JsSet.addElem s id)
          (btInsertIfAbsent v [] idx.values) = _
        rw [hinsEq]
      have hidb : id ∉ b := by
        intro hc
        exact hnobucket v ⟨b, hbv, hc⟩
      have hgetv : alistGet v (idx.add id v).values = some (JsSet.addElem b id) := by
        rw [hvalsEq, alistGet_modify_self, hbv]
        rfl
      have hgetu : ∀ u : V, u ≠ v →
          alistGet u (idx.add id v).values = alistGet u idx.values := by
        intro u hu
        rw [hvalsEq, alistGet_modify_ne hu]
      refine ⟨?_, ?_, ?_, ?_, ?_, ?_, ?_⟩
      · exact JsSet.nodup_addElem inv.presNodup id
      · rw [List.map_cons]
        exact List.nodup_cons.mpr
          ⟨alistGet_eq_none_iff_keys.mp hg, inv.ghostKeysNodup⟩
      · intro i
        show i ∈ idx.present.addElem id ↔ _
        rw [JsSet.mem_addElem, alistGet_cons]
        by_cases hid : id = i
        · subst hid
          simp
        · rw [if_neg hid]
          have hne : ¬ i = id := fun hc => hid hc.symm
          simp only [hne, or_false]
          exact inv.presIff i
      · intro i u
        rw [alistGet_cons]
        by_cases huv : u = v
        · subst huv
          constructor
          · rintro ⟨b', hb', hib'⟩
            rw [hgetv] at hb'
            injection hb' with hb2
            subst hb2
            rw [JsSet.mem_addElem] at hib'
            rcases hib' with hib | rfl
            · have hine : ¬ id = i := by
                intro hc
                exact hidb (hc ▸ hib)
              rw [if_neg hine]
              exact (inv.bucketIff i u).mp ⟨b, hbv, hib⟩
            · rw [if_pos rfl]
          · intro hr
            by_cases hid : id = i
            · subst hid
              refine ⟨JsSet.addElem b id, hgetv, ?_⟩
              rw [JsSet.mem_addElem]
              exact Or.inr rfl
            · rw [if_neg hid] at hr
              obtain ⟨b'', hb'', hib''⟩ := (inv.bucketIff i u).mpr hr
              rw [hbv] at hb''
              injection hb'' with h2
              refine ⟨JsSet.addElem b id, hgetv, ?_⟩
              rw [JsSet.mem_addElem]
              left
              rw [h2]
              exact hib''
        · rw [hgetu u huv]
          by_cases hid : id = i
          · subst hid
            rw [if_pos rfl]
            constructor
            · intro hl
              exact absurd hl (hnobucket u)
            · intro hr
              injection hr with h2
              exact absurd h2.symm huv
          · rw [if_neg hid]
            exact inv.bucketIff i u
      · intro e he
        rw [hvalsEq] at he
        obtain ⟨e', hmem, hcase⟩ := mem_alistModify he
        rcases hcase with ⟨_, heq⟩ | ⟨_, heq⟩
        · rw [heq]
          exact inv.bucketsNE e' hmem
        · rw [heq]
          show JsSet.addElem e'.2 id ≠ []
          exact JsSet.addElem_ne_nil
      · intro e he
        rw [hvalsEq] at he
        obtain ⟨e', hmem, hcase⟩ := mem_alistModify he
        rcases hcase with ⟨_, heq⟩ | ⟨_, heq⟩
        · rw [heq]
          exact inv.bucketsNodup e' hmem
        · rw [heq]
          show (JsSet.addElem e'.2 id).Nodup
          exact JsSet.nodup_addElem (inv.bucketsNodup e' hmem) id
      · show ((idx.add id v).values).Pairwise (fun a b => a.1 < b.1)
        rw [hvalsEq]
        exact pairwise_keys_alistModify inv.sorted
  | some w =>
    rw [hg] at hstep
    simp only at hstep
    by_cases hvw : v = w
    · rw [if_pos hvw] at hstep
      injection hstep with hg'
      subst hg'
      subst hvw
      obtain ⟨b, hbv, hidb⟩ := (inv.bucketIff id v).mpr hg
      have hidpres : id ∈ idx.present := by
        rw [inv.presIff id, hg]
        rfl
      have hcongr : ∀ e ∈ idx.values, e.1 = v → JsSet.addElem e.2 id = e.2 := by
        intro e he hek
        have huniq : alistGet e.1 idx.values = some e.2 := alistGet_of_mem hkeys he
        rw [hek, hbv] at huniq
        injection huniq with h2
        rw [← h2]
        exact JsSet.addElem_of_mem hidb
      have hadd : idx.add id v = idx := by
        show (⟨idx.present.addElem id, alistModify v (fun s => JsSet.addElem s id)
          (btInsertIfAbsent v [] idx.values)⟩ : BTreeFieldIndex V) = idx
        rw [JsSet.addElem_of_mem hidpres,
          btInsertIfAbsent_of_get_some inv.sorted hbv,
          alistModify_congr_id hcongr]
      rw [hadd]
      exact inv
    · rw [if_neg hvw] at hstep
      cases hstep

/-- A disciplined `delete` preserves the Ordered Value Index invariant. -/
theorem btreeInv_step_del {V : Type} [LinearOrder V] {idx : BTreeFieldIndex V}
    {g g' : List (String × V)} {id : String} {v : V}
    (inv : BTreeInv idx g) (hstep : ghostStep g (Op.del id v) = some g') :
    BTreeInv (idx.delete id v) g' := by
  have hkeys : (idx.values.map Prod.fst).Nodup := keys_nodup_of_sorted inv.sorted
  unfold ghostStep at hstep
  simp only at hstep
  cases hg : alistGet id g with
  | none =>
    rw [hg] at hstep
    simp only at hstep
    injection hstep with hg'
    subst hg'
    have hidpres : id ∉ idx.present := by
      rw [inv.presIff id, hg]
      simp
    have hnobucket : ∀ u : V, ¬ ∃ b, alistGet u idx.values = some b ∧ id ∈ b := by
      intro u hu
      have hcon := (inv.bucketIff id u).mp hu
      rw [hg] at hcon
      simp at hcon
    have hdel : idx.delete id v = idx := by
      unfold BTreeFieldIndex.delete
      cases hbv : alistGet v idx.values with
      | none =>
        simp only
        rw [alistDel_of_get_none hbv, List.erase_of_not_mem hidpres]
      | some sb =>
        have hidsb : id ∉ sb := fun hc => hnobucket v ⟨sb, hbv, hc⟩
        have hsbne : sb ≠ [] := inv.bucketsNE (v, sb) (alistGet_mem hbv)
        have hcongr : ∀ e ∈ idx.values, e.1 = v → e.2.erase id = e.2 := by
          intro e he hek
          have huniq : alistGet e.1 idx.values = some e.2 := alistGet_of_mem hkeys he
          rw [hek, hbv] at huniq
          injection huniq with h2
          rw [← h2]
          exact List.erase_of_not_mem hidsb
        simp only
        rw [List.erase_of_not_mem hidsb, if_neg hsbne,
          List.erase_of_not_mem hidpres, alistModify_congr_id hcongr]
    rw [hdel]
    exact inv
  | some w =>
    rw [hg] at hstep
    simp only at hstep
    by_cases hvw : v = w
    · rw [if_pos hvw] at hstep
      injection hstep with hg'
      subst hg'
      subst hvw
      obtain ⟨b, hbv, hidb⟩ := (inv.bucketIff id v).mpr hg
      have hbnd : b.Nodup := inv.bucketsNodup (v, b) (alistGet_mem hbv)
      have hpres' : (idx.delete id v).present = idx.present.erase id :=
        BTreeFieldIndex.delete_present idx id v
      have hgkeys' : ((alistDel id g).map Prod.fst).Nodup :=
        List.Nodup.sublist (List.Sublist.map Prod.fst alistDel_sublist)
          inv.ghostKeysNodup
      have hpresIff' : ∀ i : String,
          i ∈ (idx.delete id v).present ↔ (alistGet i (alistDel id g)).isSome := by
        intro i
        rw [hpres', List.Nodup.mem_erase_iff inv.presNodup]
        by_cases hid : i = id
        · subst hid
          rw [alistGet_del_self]
          simp
        · rw [alistGet_del_ne hid]
          constructor
          · rintro ⟨_, hi⟩
            exact (inv.presIff i).mp hi
          · intro hi
            exact ⟨hid, (inv.presIff i).mpr hi⟩
      by_cases hbe : b.erase id = []
      · have hvals : (idx.delete id v).values = alistDel v idx.values := by
          unfold BTreeFieldIndex.delete
          rw [hbv]
          simp only
          rw [if_pos hbe]
        have hball : ∀ i ∈ b, i = id := erase_nil_all hbnd hbe
        refine ⟨?_, hgkeys', hpresIff', ?_, ?_, ?_, ?_⟩
        · rw [hpres']
          exact List.Nodup.erase id inv.presNodup
        · intro i u
          by_cases hid : i = id
          · subst hid
            rw [alistGet_del_self]
            constructor
            · rintro ⟨b', hb', hib'⟩
              by_cases huv : u = v
              · subst huv
                rw [hvals, alistGet_del_self] at hb'
                cases hb'
              · rw [hvals, alistGet_del_ne huv] at hb'
                have hcon := (inv.bucketIff i u).mp ⟨b', hb', hib'⟩
                rw [hg] at hcon
                injection hcon with h2
                exact absurd h2.symm huv
            · intro hr
              cases hr
          · rw [alistGet_del_ne hid]
            by_cases huv : u = v
            · subst huv
              constructor
              · rintro ⟨b', hb', hib'⟩
                rw [hvals, alistGet_del_self] at hb'
                cases hb'
              · intro hr
                obtain ⟨b'', hb'', hib''⟩ := (inv.bucketIff i u).mpr hr
                rw [hbv] at hb''
                injection hb'' with h2
                rw [← h2] at hib''
                exact absurd (hball i hib'') hid
            · have hx : alistGet u (idx.delete id v).values = alistGet u idx.values := by
                rw [hvals, alistGet_del_ne huv]
              rw [hx]
              exact inv.bucketIff i u
        · intro e he
          rw [hvals] at he
          exact inv.bucketsNE e (alistDel_sublist.subset he)
        · intro e he
          rw [hvals] at he
          exact inv.bucketsNodup e (alistDel_sublist.subset he)
        · show ((idx.delete id v).values).Pairwise (fun a b => a.1 < b.1)
          rw [hvals]
          exact List.Pairwise.sublist alistDel_sublist inv.sorted
      · have hvals : (idx.delete id v).values
            = alistModify v (fun s => s.erase id) idx.values := by
          unfold BTreeFieldIndex.delete
          rw [hbv]
          simp only
          rw [if_neg hbe]
        refine ⟨?_, hgkeys', hpresIff', ?_, ?_, ?_, ?_⟩
        · rw [hpres']
          exact List.Nodup.erase id inv.presNodup
        · intro i u
          by_cases hid : i = id
          · subst hid
            rw [alistGet_del_self]
            constructor
            · rintro ⟨b', hb', hib'⟩
              by_cases huv : u = v
              · subst huv
                rw [hvals, alistGet_modify_self, hbv] at hb'
                injection hb' with h2
                rw [← h2] at hib'
                rw [List.Nodup.mem_erase_iff hbnd] at hib'
                exact absurd rfl hib'.1
              · rw [hvals, alistGet_modify_ne huv] at hb'
                have hcon := (inv.bucketIff i u).mp ⟨b', hb', hib'⟩
                rw [hg] at hcon
                injection hcon with h2
                exact absurd h2.symm huv
            · intro hr
              cases hr
          · rw [alistGet_del_ne hid]
            by_cases huv : u = v
            · subst huv
              have hbk : alistGet u (idx.delete id u).values = some (b.erase id) := by
                rw [hvals, alistGet_modify_self, hbv]
                rfl
              constructor
              · rintro ⟨b', hb', hib'⟩
                rw [hbk] at hb'
                injection hb' with h2
                rw [← h2] at hib'
                rw [List.Nodup.mem_erase_iff hbnd] at hib'
                exact (inv.bucketIff i u).mp ⟨b, hbv, hib'.2⟩
              · intro hr
                obtain ⟨b'', hb'', hib''⟩ := (inv.bucketIff i u).mpr hr
                rw [hbv] at hb''
                injection hb'' with h2
                rw [← h2] at hib''
                refine ⟨b.erase id, hbk, ?_⟩
                rw [List.Nodup.mem_erase_iff hbnd]
                exact ⟨hid, hib''⟩
            · have hx : alistGet u (idx.delete id v).values = alistGet u idx.values := by
                rw [hvals, alistGet_modify_ne huv]
              rw [hx]
              exact inv.bucketIff i u
        · intro e he
          rw [hvals] at he
          obtain ⟨e', hmem, hcase⟩ := mem_alistModify he
          rcases hcase with ⟨_, heq⟩ | ⟨hek, heq⟩
          · rw [heq]
            exact inv.bucketsNE e' hmem
          · have huniq : alistGet e'.1 idx.values = some e'.2 :=
              alistGet_of_mem hkeys hmem
            rw [hek, hbv] at huniq
            injection huniq with h2
            rw [heq]
            show e'.2.erase id ≠ []
            rw [← h2]
            exact hbe
        · intro e he
          rw [hvals] at he
          obtain ⟨e', hmem, hcase⟩ := mem_alistModify he
          rcases hcase with ⟨_, heq⟩ | ⟨_, heq⟩
          · rw [heq]
            exact inv.bucketsNodup e' hmem
          · rw [heq]
            show (e'.2.erase id).Nodup
            exact List.Nodup.erase id (inv.bucketsNodup e' hmem)
        · show ((idx.delete id v).values).Pairwise (fun a b => a.1 < b.1)
          rw [hvals]
          exact pairwise_keys_alistModify inv.sorted
    · rw [if_neg hvw] at hstep
      cases hstep

/-- One disciplined step preserves the invariant. -/
theorem btreeInv_step {V : Type} [LinearOrder V] {idx : BTreeFieldIndex V}
    {g g' : List (String × V)} {op : Op V}
    (inv : BTreeInv idx g) (hstep : ghostStep g op = some g') :
    BTreeInv (idx.step op) g' := by
  cases op with
  | add id v => exact btreeInv_step_add inv hstep
  | del id v => exact btreeInv_step_del inv hstep

/-- A disciplined run preserves the invariant. -/
theorem btreeInv_run {V : Type} [LinearOrder V] (ops : List (Op V)) :
    ∀ {idx : BTreeFieldIndex V} {g g' : List (String × V)},
      BTreeInv idx g → ghostRun g ops = some g' →
      BTreeInv (ops.foldl BTreeFieldIndex.step idx) g' := by
  induction ops with
  | nil =>
    intro idx g g' inv h
    unfold ghostRun at h
    injection h with h2
    subst h2
    exact inv
  | cons op rest ih =>
    intro idx g g' inv h
    unfold ghostRun at h
    cases hs : ghostStep g op with
    | none =>
      rw [hs] at h
      simp at h
    | some g1 =>
      rw [hs] at h
      simp only at h
      rw [List.foldl_cons]
      exact ih (btreeInv_step inv hs) h

/-- C4 (amended): for every mutation sequence from the empty
`BTreeFieldIndex` that obeys the lifecycle discipline — `add(id, v)` only
when `id` is unindexed or already holds exactly `v`, and `delete(id, v)`
only when `id` currently holds `v` or is unindexed (the ghost run
`ghostRun [] ops = some g` encodes exactly this, with `g` the resulting
current-value map) — the invariant holds: an id lies in the bucket
`values[v]` exactly when `v` is its current value, an id lies in `present`
exactly when it lies in exactly one bucket of `values`, and no empty bucket
is retained in the sorted map.  (The claim's own discipline, which
constrains only `add`, is not enough: see the counterexample.) -/
theorem btree_invariant_under_discipline {V : Type} [LinearOrder V]
    (ops : List (Op V)) (g : List (String × V))
    (hops : ghostRun [] ops = some g) :
    (∀ (id : String) (v : V),
      (∃ b, alistGet v (BTreeFieldIndex.replay ops).values = some b ∧ id ∈ b) ↔
        alistGet id g = some v) ∧
    (∀ id : String, id ∈ (BTreeFieldIndex.replay ops).present ↔
      ∃ (v : V) (b : JsSet),
        alistGet v (BTreeFieldIndex.replay ops).values = some b ∧ id ∈ b ∧
        ∀ (v' : V) (b' : JsSet),
          alistGet v' (BTreeFieldIndex.replay ops).values = some b' → id ∈ b' →
            v' = v) ∧
    (∀ e ∈ (BTreeFieldIndex.replay ops).values, e.2 ≠ []) := by
  have inv : BTreeInv (BTreeFieldIndex.replay ops) g :=
    btreeInv_run ops btreeInv_empty hops
  refine ⟨fun id v => inv.bucketIff id v, ?_, inv.bucketsNE⟩
  intro id
  rw [inv.presIff id]
  constructor
  · intro hsome
    cases hv : alistGet id g with
    | none =>
      rw [hv] at hsome
      simp at hsome
    | some v0 =>
      obtain ⟨b, hb, hidb⟩ := (inv.bucketIff id v0).mpr hv
      refine ⟨v0, b, hb, hidb, ?_⟩
      intro v' b' hb' hid'
      have h1 := (inv.bucketIff id v').mp ⟨b', hb', hid'⟩
      rw [hv] at h1
      injection h1 with h2
      exact h2.symm
  · rintro ⟨v0, b, hb, hidb, _⟩
    rw [(inv.bucketIff id v0).mp ⟨b, hb, hidb⟩]
    rfl

/-- C4 (counterexample to the claim as stated): the sequence
`add(p, 5); delete(p, 3)` obeys the claim's discipline (the only constraint
stated is on re-adding after a value change, and there is no second add), yet
it breaks the invariant: afterwards `p` is in no `present` set but still sits
in exactly one bucket, the bucket for value `5`. -/
theorem btree_invariant_fails_on_mismatched_delete :
    "p" ∉ ((BTreeFieldIndex.empty.add "p" (5 : Int)).delete "p" 3).present ∧
    ((BTreeFieldIndex.empty.add "p" (5 : Int)).delete "p" 3).values =
      [(5, ["p"])] := by
  refine ⟨by decide, by decide⟩

/-- C4 witness: a disciplined two-add run, instantiated at `p1`. -/
theorem btree_invariant_witness :
    "p1" ∈ (BTreeFieldIndex.replay [Op.add "p1" (5 : Int), Op.add "p2" 3]).present ↔
      ∃ (v : Int) (b : JsSet),
        alistGet v (BTreeFieldIndex.replay
          [Op.add "p1" (5 : Int), Op.add "p2" 3]).values = some b ∧ "p1" ∈ b ∧
        ∀ (v' : Int) (b' : JsSet),
          alistGet v' (BTreeFieldIndex.replay
            [Op.add "p1" (5 : Int), Op.add "p2" 3]).values = some b' →
          "p1" ∈ b' → v' = v :=
  (btree_invariant_under_discipline [Op.add "p1" (5 : Int), Op.add "p2" 3]
    [("p2", (3 : Int)), ("p1", 5)] (by decide)).2.1 "p1"
